import Mathlib

/-!
Shallow embedding of the timed-node-traversal workflow runner
(src/main.py) and proofs about its validation, DAG-building and
traversal components.

Conventions of the embedding:
* Python dicts become insertion-ordered association lists
  (`List (String × _)`); `dict[k]` becomes `List.lookup`, which can
  fail, and an uncaught Python `KeyError` is modelled by
  `Err.keyError`.
* Python exceptions become `Except Err`; `TypeError(msg)` becomes
  `Err.typeError msg`; a `RecursionError` (Python's finite stack) is
  modelled by a fuel parameter, exhaustion giving
  `Err.recursionError`.
* The JSON value stored under the "start" key may be any JSON value;
  this is modelled by `JVal`.  Delays are modelled as exact rationals.
-/

namespace Traverse

/-- A JSON value as it may appear under the "start" key of a node
descriptor.  Python's `x is True` holds exactly for the boolean
`True`, i.e. for `JVal.bool true` here. -/
inductive JVal : Type where
  | bool (b : Bool)
  | num (q : ℚ)
  | str (s : String)
  | null
deriving DecidableEq, Repr

/-- A raw node descriptor: the value of one key of the workflow JSON
object.  `start` and `edges` are optional keys; `dict.get` defaults
are applied by `getStart` / `getEdges` below. -/
structure RawNode : Type where
  start : Option JVal
  edges : Option (List (String × ℚ))
deriving DecidableEq, Repr

/-- Python `val.get("start", False)`. -/
def RawNode.getStart (n : RawNode) : JVal :=
  n.start.getD (JVal.bool false)

/-- Python `workflow[node].get("edges", {})`: the ordered
target-name/delay pairs of a node, defaulting to none. -/
def RawNode.getEdges (n : RawNode) : List (String × ℚ) :=
  n.edges.getD []

/-- A raw workflow: a JSON object mapping node names to descriptors,
in insertion order. -/
abbrev Workflow := List (String × RawNode)

/-- The errors the core can raise: `TypeError` with a message (raised
by `validate_spec`), an uncaught `KeyError` from a dict lookup, and
`RecursionError` for exhausted recursion depth (fuel). -/
inductive Err : Type where
  | typeError (msg : String)
  | keyError (key : String)
  | recursionError
deriving DecidableEq, Repr

/-- Python `str` of a list of strings, e.g. `['A', 'B']`, as used by
the f-string in `validate_spec`'s multiple-start-nodes message. -/
def pyStrList (xs : List String) : String :=
  "[" ++ String.intercalate ", " (xs.map (fun s => "\x27" ++ s ++ "\x27")) ++ "]"

/-- `get_start_nodes` from src/main.py: the names whose descriptor's
"start" value `is True` (Python identity: exactly the boolean true),
in declaration order. -/
def get_start_nodes (workflow : Workflow) : List String :=
  workflow.filterMap fun kv =>
    if kv.2.getStart = JVal.bool true then some kv.1 else none

mutual
/-- `is_cyclical` from src/main.py.  The Python function mutates a
single `visited_nodes` list that is shared by the entire recursion
(it is passed by reference and never copied), so the embedding
threads the list through and returns its final state.  `fuel` models
Python's recursion limit; `workflow[node]` is the lookup that raises
`KeyError` on a dangling name. -/
def is_cyclical : Nat → Workflow → String → List String → Except Err (Bool × List String)
  | 0, _, _, _ => .error .recursionError
  | fuel + 1, workflow, node, visited_nodes =>
    if node ∈ visited_nodes then .ok (true, visited_nodes)
    else
      let visited := visited_nodes ++ [node]
      match List.lookup node workflow with
      | none => .error (.keyError node)
      | some desc => any_cyclical fuel workflow (desc.getEdges.map Prod.fst) visited
termination_by fuel _ _ _ => (fuel, 0)

/-- The `any(is_cyclical(workflow, n, visited_nodes) for n in edges)`
generator expression: short-circuits on the first `True`, threads the
shared `visited_nodes` list, and propagates exceptions.  On an empty
edge dict the Python code returns `False` without entering `any`,
which coincides with `any` over an empty generator. -/
def any_cyclical : Nat → Workflow → List String → List String → Except Err (Bool × List String)
  | _, _, [], visited => .ok (false, visited)
  | fuel, workflow, n :: rest, visited =>
    match is_cyclical fuel workflow n visited with
    | .error e => .error e
    | .ok (true, v) => .ok (true, v)
    | .ok (false, v) => any_cyclical fuel workflow rest v
termination_by fuel _ ns _ => (fuel, ns.length + 1)
end

/-- Recursion depth given to `is_cyclical` by `validate_spec`: one
frame per workflow key plus slack, which is always sufficient because
every productive frame appends a distinct workflow key to the shared
visited list. -/
def validateFuel (wf : Workflow) : Nat := wf.length + 2

/-- `validate_spec` from src/main.py, after the (external) JSON
loading step: checks the start-node count, then runs `is_cyclical`
from the single start node.  All `TypeError`s carry the exact
messages of the source; a `KeyError` escaping `is_cyclical`
propagates uncaught. -/
def validate_spec (workflow : Workflow) : Except Err Unit :=
  match get_start_nodes workflow with
  | [] => .error (.typeError "Invalid workflow spec: no start nodes found")
  | [s] =>
    match is_cyclical (validateFuel workflow) workflow s [] with
    | .error e => .error e
    | .ok (true, _) => .error (.typeError "Invalid workflow spec: cycle found")
    | .ok (false, _) => .ok ()
  | starts =>
    .error (.typeError
      ("Invalid workflow spec: more than one start node found, " ++ pyStrList starts))

mutual
/-- `Node` namedtuple from src/main.py: a runtime tree node with a
name and an ordered sequence of outgoing edges. -/
inductive Node : Type where
  | mk (name : String) (edges : Edges)

/-- The ordered list of `Edge`s of a `Node` (a dedicated list type so
that all recursion over the tree is structural). -/
inductive Edges : Type where
  | nil : Edges
  | cons (e : Edge) (rest : Edges) : Edges

/-- `Edge` namedtuple from src/main.py: a child subtree together with
the delay in seconds before visiting it. -/
inductive Edge : Type where
  | mk (node : Node) (time : ℚ)
end

/-- The name of a runtime node. -/
def Node.name : Node → String
  | .mk n _ => n

/-- The edges of a runtime node. -/
def Node.edges : Node → Edges
  | .mk _ es => es

/-- The child subtree of an edge. -/
def Edge.node : Edge → Node
  | .mk n _ => n

/-- The delay of an edge. -/
def Edge.time : Edge → ℚ
  | .mk _ t => t

mutual
/-- `build_dag` from src/main.py: materializes the runtime tree for
`node_name`, recursing into every edge target in declaration order.
`workflow[node_name]` raises `KeyError` on a dangling name; `fuel`
models Python's recursion limit. -/
def build_dag : Nat → Workflow → String → Except Err Node
  | 0, _, _ => .error .recursionError
  | fuel + 1, workflow, node_name =>
    match List.lookup node_name workflow with
    | none => .error (.keyError node_name)
    | some desc =>
      match build_edges fuel workflow desc.getEdges with
      | .error e => .error e
      | .ok es => .ok (.mk node_name es)
termination_by fuel _ _ => (fuel, 0)

/-- The list comprehension
`[Edge(node=build_dag(workflow, n), time=edges[n]) for n in edges]`:
builds each child subtree in declaration order, stopping at the first
exception. -/
def build_edges : Nat → Workflow → List (String × ℚ) → Except Err Edges
  | _, _, [] => .ok .nil
  | fuel, workflow, (n, t) :: rest =>
    match build_dag fuel workflow n with
    | .error e => .error e
    | .ok child =>
      match build_edges fuel workflow rest with
      | .error e => .error e
      | .ok es => .ok (.cons (.mk child t) es)
termination_by fuel _ es => (fuel, es.length + 1)
end

mutual
/-- Number of `Node`s in a runtime tree. -/
def Node.size : Node → Nat
  | .mk _ es => 1 + es.sizeNodes

/-- Number of `Node`s hanging off an edge list. -/
def Edges.sizeNodes : Edges → Nat
  | .nil => 0
  | .cons (.mk child _) rest => child.size + rest.sizeNodes
end

mutual
/-- Number of `Node`s named `x` in a runtime tree. -/
def occCount (x : String) : Node → Nat
  | .mk name es => (if name = x then 1 else 0) + occCountE x es

/-- Number of `Node`s named `x` hanging off an edge list. -/
def occCountE (x : String) : Edges → Nat
  | .nil => 0
  | .cons (.mk child _) rest => occCount x child + occCountE x rest
end

/-- Modelled from the spec: the number of distinct edge-paths of the
raw graph that start at `n` and end at `x`, counting paths in the
depth-`fuel` unfolding of the edge relation.  This is the spec-side
measure against which the builder's structural duplication is
compared. -/
def countPaths : Nat → Workflow → String → String → Nat
  | 0, _, _, _ => 0
  | fuel + 1, wf, n, x =>
    (if n = x then 1 else 0) +
      match List.lookup n wf with
      | none => 0
      | some desc => ((desc.getEdges.map Prod.fst).map fun m => countPaths fuel wf m x).sum

mutual
/-- Exact-timer denotation of `run_workflow` from src/main.py: the
visit observations emitted by traversing the tree when the current
node is visited at absolute time `t`.  `run_workflow` emits the
node's own observation first and then launches, for every edge, a
`run_workflow_after` task that fires `edge.time` seconds after this
visit; under exact timers that child subtree is visited starting at
`t + edge.time`.  The returned list carries each observation with its
exact firing time, listed in task-spawn (depth-first) order. -/
def schedule (t : ℚ) : Node → List (ℚ × String)
  | .mk name es => (t, name) :: scheduleEdges t es

/-- The observations of the subtrees launched by the loop
`for edge in node.edges: create_task(run_workflow_after(edge.time, edge.node))`,
in spawn order. -/
def scheduleEdges (t : ℚ) : Edges → List (ℚ × String)
  | .nil => []
  | .cons (.mk child d) rest => schedule (t + d) child ++ scheduleEdges t rest
end

mutual
/-- Exact-timer denotation of task completion: `run_workflow` returns
only when `asyncio.gather` has seen every spawned child task finish,
so a visit started at time `t` completes at the latest completion
time among its children's subtrees (or at `t` itself for a leaf). -/
def completes (t : ℚ) : Node → ℚ
  | .mk _ es => completesE t es

/-- Completion time of `asyncio.gather` over the child tasks of a
node visited at time `t`. -/
def completesE (t : ℚ) : Edges → ℚ
  | .nil => t
  | .cons (.mk child d) rest => max (completes (t + d) child) (completesE t rest)
end

mutual
/-- All edge delays in the tree are non-negative (the spec's
invariant on delays). -/
def Node.nonneg : Node → Bool
  | .mk _ es => es.nonnegE

/-- All edge delays hanging off an edge list are non-negative. -/
def Edges.nonnegE : Edges → Bool
  | .nil => true
  | .cons (.mk child d) rest => (decide (0 ≤ d)) && child.nonneg && rest.nonnegE
end

/-- The `i`-th edge of an edge list. -/
def Edges.getEdge : Edges → Nat → Option Edge
  | .nil, _ => none
  | .cons e _, 0 => some e
  | .cons _ rest, i + 1 => rest.getEdge i

/-- The node reached from `root` by following the given sequence of
edge indices (a root-to-node path of the runtime tree). -/
def followPath : Node → List Nat → Option Node
  | n, [] => some n
  | .mk _ es, i :: p =>
    match es.getEdge i with
    | some e => followPath e.node p
    | none => none

/-- Modelled from the spec: the sum of the edge delays along a
root-to-node path of the runtime tree. -/
def pathDelay : Node → List Nat → Option ℚ
  | _, [] => some 0
  | .mk _ es, i :: p =>
    match es.getEdge i with
    | some e => (pathDelay e.node p).map (fun d => e.time + d)
    | none => none

mutual
/-- Position of the node reached by a path within the spawn-ordered
observation list `schedule t root`. -/
def preIdx : Node → List Nat → Option Nat
  | _, [] => some 0
  | .mk _ es, i :: p => (preIdxE es i p).map (· + 1)

/-- Position, within `scheduleEdges t es`, of the node reached by
descending into the `i`-th edge and then following `p`. -/
def preIdxE : Edges → Nat → List Nat → Option Nat
  | .nil, _, _ => none
  | .cons (.mk child _) _, 0, p => preIdx child p
  | .cons (.mk child _) rest, i + 1, p => (preIdxE rest i p).map (fun k => child.size + k)
end

/-- The ordered sequence of child names of an edge list. -/
def Edges.targetNames : Edges → List String
  | .nil => []
  | .cons (.mk child _) rest => child.name :: rest.targetNames

/-- The ordered sequence of delays of an edge list. -/
def Edges.delays : Edges → List ℚ
  | .nil => []
  | .cons (.mk _ d) rest => d :: rest.delays

/-! Concrete workflows and trees used as inputs of the evaluation
theorems and witnesses.  `diamondWf` is an acyclic graph whose node
"D" is shared by the two branches; `simpleWf` and `interWf` mirror
the SIMPLE and INTERLEAVED fixtures of src/tests.py. -/

/-- Modelled from the spec: the path-local depth-first cycle check
`walk(node, pathSoFar)` of §4.1 — a cycle exists iff some
root-to-node path revisits a node already on that same path; the
path is extended per branch and never shared between sibling
branches.  Fuel exhaustion conservatively reports a cycle; a lookup
failure terminates that branch. -/
def walk_cycle : Nat → Workflow → String → List String → Bool
  | 0, _, _, _ => true
  | fuel + 1, wf, node, path =>
    if node ∈ path then true
    else
      match List.lookup node wf with
      | none => false
      | some desc =>
        (desc.getEdges.map Prod.fst).any fun m => walk_cycle fuel wf m (path ++ [node])

/-- A single-start diamond DAG: A → B → D, A → C → D; acyclic, with
"D" reachable by two disjoint paths. -/
def diamondWf : Workflow :=
  [("A", ⟨some (JVal.bool true), some [("B", 1), ("C", 1)]⟩),
   ("B", ⟨none, some [("D", 1)]⟩),
   ("C", ⟨none, some [("D", 1)]⟩),
   ("D", ⟨none, some []⟩)]

/-- A workflow whose single edge targets the absent name "B". -/
def danglingWf : Workflow :=
  [("A", ⟨some (JVal.bool true), some [("B", 1)]⟩)]

/-- Two nodes both marked as start. -/
def twoStartWf : Workflow :=
  [("A", ⟨some (JVal.bool true), some [("B", (1 : ℚ)/10)]⟩),
   ("B", ⟨some (JVal.bool true), none⟩)]

/-- No node marked as start. -/
def noStartWf : Workflow :=
  [("A", ⟨none, some [("B", (1 : ℚ)/10)]⟩), ("B", ⟨none, none⟩)]

/-- The only start marking is the truthy non-boolean number 1. -/
def truthyWf : Workflow := [("A", ⟨some (JVal.num 1), some []⟩)]

/-- The SIMPLE fixture of src/tests.py: A with edges B: 0.5, C: 0.7. -/
def simpleWf : Workflow :=
  [("A", ⟨some (JVal.bool true), some [("B", (1 : ℚ)/2), ("C", (7 : ℚ)/10)]⟩),
   ("B", ⟨none, some []⟩),
   ("C", ⟨none, some []⟩)]

/-- The runtime tree built from `simpleWf`. -/
def simpleTree : Node :=
  .mk "A" (.cons (.mk (.mk "B" .nil) ((1 : ℚ)/2))
    (.cons (.mk (.mk "C" .nil) ((7 : ℚ)/10)) .nil))

/-- The runtime tree built from `diamondWf` by `build_dag`: the
shared descendant "D" is duplicated, once per path. -/
def diamondTree : Node :=
  .mk "A" (.cons (.mk (.mk "B" (.cons (.mk (.mk "D" .nil) 1) .nil)) 1)
    (.cons (.mk (.mk "C" (.cons (.mk (.mk "D" .nil) 1) .nil)) 1) .nil))

/-- The INTERLEAVED fixture of src/tests.py as a runtime tree:
A → B (0.4) → D (0.1), and A → C (0.7). -/
def interTree : Node :=
  .mk "A" (.cons (.mk (.mk "B" (.cons (.mk (.mk "D" .nil) ((1 : ℚ)/10)) .nil)) ((2 : ℚ)/5))
    (.cons (.mk (.mk "C" .nil) ((7 : ℚ)/10)) .nil))

/-! Theorems. -/

/-- C1.  The claim fails on the code: `diamondWf` is an acyclic DAG
with exactly one start node whose node "D" is merely shared between
two disjoint paths — the spec's path-local walk (`walk_cycle`)
reports no cycle — yet `validate_spec` fails with the cycle error,
because `is_cyclical` shares one mutable visited list across the
whole depth-first search instead of keeping it per path. -/
theorem validate_rejects_acyclic_diamond :
    walk_cycle (validateFuel diamondWf) diamondWf "A" [] = false ∧
    validate_spec diamondWf = .error (.typeError "Invalid workflow spec: cycle found") := by
  constructor <;>
    simp [walk_cycle, validate_spec, validateFuel, get_start_nodes, is_cyclical,
      any_cyclical, RawNode.getEdges, RawNode.getStart, diamondWf, List.lookup]

/-- C2.  On a graph whose edge targets the absent name "B", both the
validator (via `is_cyclical`) and the builder raise an uncaught
`KeyError` — the opaque lookup crash — instead of any distinct
dangling-edge-reference error kind (no such kind exists in the
code). -/
theorem dangling_edge_uncaught_keyerror :
    validate_spec danglingWf = .error (.keyError "B") ∧
    build_dag (validateFuel danglingWf) danglingWf "A" = .error (.keyError "B") := by
  constructor <;>
    simp [validate_spec, validateFuel, get_start_nodes, is_cyclical, any_cyclical,
      build_dag, build_edges, RawNode.getEdges, RawNode.getStart, danglingWf, List.lookup]

/-- C5.  Zero start-marked nodes fail with the no-start-node error
and two start-marked nodes fail with the multiple-start-nodes error
carrying the offending names, as claimed; but the success clause of
the claim fails on the code: `diamondWf` has exactly one start node
and no cycle reachable from it, yet validation fails with the cycle
error. -/
theorem validate_start_counts_eval :
    validate_spec noStartWf = .error (.typeError "Invalid workflow spec: no start nodes found") ∧
    validate_spec twoStartWf =
      .error (.typeError
        "Invalid workflow spec: more than one start node found, [\x27A\x27, \x27B\x27]") ∧
    get_start_nodes diamondWf = ["A"] ∧
    walk_cycle (validateFuel diamondWf) diamondWf "A" [] = false ∧
    validate_spec diamondWf = .error (.typeError "Invalid workflow spec: cycle found") := by
  refine ⟨?_, ?_, ?_, ?_, ?_⟩ <;>
    · simp [walk_cycle, validate_spec, validateFuel, get_start_nodes, is_cyclical,
        any_cyclical, RawNode.getEdges, RawNode.getStart, pyStrList,
        noStartWf, twoStartWf, diamondWf, List.lookup]
      try rfl

/-- C10.  A node counts as a start node only when its "start" value
is identically the boolean true: if no descriptor's start value is
the boolean true (in particular when the only markings are truthy
non-booleans such as the number 1), `get_start_nodes` collects
nothing and validation fails with the no-start-node error. -/
theorem start_marker_requires_bool_true (wf : Workflow)
    (h : ∀ p ∈ wf, RawNode.getStart p.2 ≠ JVal.bool true) :
    get_start_nodes wf = [] ∧
    validate_spec wf = .error (.typeError "Invalid workflow spec: no start nodes found") := by
  have hempty : get_start_nodes wf = [] := by
    unfold get_start_nodes
    rw [List.filterMap_eq_nil_iff]
    intro p hp
    simp [h p hp]
  refine ⟨hempty, ?_⟩
  unfold validate_spec
  rw [hempty]

/-- Witness for C10 at the concrete workflow whose only start marking
is the number 1. -/
theorem start_marker_requires_bool_true_witness :
    get_start_nodes truthyWf = [] ∧
    validate_spec truthyWf = .error (.typeError "Invalid workflow spec: no start nodes found") :=
  start_marker_requires_bool_true truthyWf (by decide)

/-- If the shared-visited-list cycle check returns `false` from some
node, the builder succeeds from that node at the same recursion
depth: every lookup the builder performs was already performed by the
check, and the check's recursion tree covers the builder's. -/
theorem build_of_is_cyclical_false :
    ∀ fuel wf node visited v,
      is_cyclical fuel wf node visited = .ok (false, v) →
      ∃ t, build_dag fuel wf node = .ok t := by
  intro fuel
  induction fuel with
  | zero => intro wf node visited v h; simp [is_cyclical] at h
  | succ fuel ih =>
    have edges_ih : ∀ wf (es : List (String × ℚ)) visited v,
        any_cyclical fuel wf (es.map Prod.fst) visited = .ok (false, v) →
        ∃ el, build_edges fuel wf es = .ok el := by
      intro wf es
      induction es with
      | nil => intro visited v _; exact ⟨.nil, by simp [build_edges]⟩
      | cons hd rest ihes =>
        obtain ⟨n, t⟩ := hd
        intro visited v h
        simp only [List.map_cons, any_cyclical] at h
        cases hc : is_cyclical fuel wf n visited with
        | error e => rw [hc] at h; simp at h
        | ok bv =>
          obtain ⟨b, v0⟩ := bv
          cases b with
          | true => rw [hc] at h; simp at h
          | false =>
            rw [hc] at h
            obtain ⟨child, hchild⟩ := ih wf n visited v0 hc
            obtain ⟨el, hel⟩ := ihes v0 v h
            exact ⟨.cons (.mk child t) el, by simp [build_edges, hchild, hel]⟩
    intro wf node visited v h
    simp only [is_cyclical] at h
    by_cases hmem : node ∈ visited
    · simp [hmem] at h
    · simp only [hmem, if_false] at h
      cases hl : List.lookup node wf with
      | none => rw [hl] at h; simp at h
      | some desc =>
        rw [hl] at h
        obtain ⟨el, hel⟩ := edges_ih wf desc.getEdges (visited ++ [node]) v h
        exact ⟨.mk node el, by simp [build_dag, hl, hel]⟩

/-- C9.  For every graph that passes validation, the builder applied
to the graph and its start node terminates successfully at the very
recursion depth the validator used: the validator's accepting run of
`is_cyclical` covers the builder's recursion. -/
theorem build_terminates_on_validated (wf : Workflow) (s : String)
    (hs : get_start_nodes wf = [s])
    (hv : validate_spec wf = .ok ()) :
    ∃ t, build_dag (validateFuel wf) wf s = .ok t := by
  unfold validate_spec at hv
  rw [hs] at hv
  dsimp only at hv
  cases hc : is_cyclical (validateFuel wf) wf s [] with
  | error e => rw [hc] at hv; simp at hv
  | ok bv =>
    obtain ⟨b, v⟩ := bv
    cases b with
    | true => rw [hc] at hv; simp at hv
    | false => exact build_of_is_cyclical_false _ wf s [] v hc

/-- Witness for C9 at the SIMPLE fixture graph. -/
theorem build_terminates_on_validated_witness :
    ∃ t, build_dag (validateFuel simpleWf) simpleWf "A" = .ok t :=
  build_terminates_on_validated simpleWf "A" (by rfl)
    (by simp [validate_spec, validateFuel, get_start_nodes, is_cyclical, any_cyclical,
      RawNode.getEdges, RawNode.getStart, simpleWf, List.lookup])

/-- A successfully built node carries exactly the name it was built
for. -/
theorem build_dag_name : ∀ fuel wf n t, build_dag fuel wf n = .ok t → t.name = n := by
  intro fuel wf n t h
  cases fuel with
  | zero => simp [build_dag] at h
  | succ fuel =>
    simp only [build_dag] at h
    cases hl : List.lookup n wf with
    | none => rw [hl] at h; simp at h
    | some desc =>
      rw [hl] at h
      dsimp only at h
      cases hb : build_edges fuel wf desc.getEdges with
      | error e => rw [hb] at h; simp at h
      | ok es => rw [hb] at h; cases h; rfl

/-- Success of the builder is unaffected by giving it more fuel: the
result at any sufficient recursion depth is the same tree. -/
theorem build_dag_mono :
    ∀ f g wf n t, f ≤ g → build_dag f wf n = .ok t → build_dag g wf n = .ok t := by
  intro f
  induction f with
  | zero => intro g wf n t _ h; simp [build_dag] at h
  | succ f ih =>
    have edges_mono : ∀ g wf (es : List (String × ℚ)) el, f ≤ g →
        build_edges f wf es = .ok el → build_edges g wf es = .ok el := by
      intro g wf es
      induction es with
      | nil => intro el _ h; simp [build_edges] at h; simp [build_edges, h]
      | cons hd rest ihes =>
        obtain ⟨n, t⟩ := hd
        intro el hfg h
        simp only [build_edges] at h ⊢
        cases hb : build_dag f wf n with
        | error e => rw [hb] at h; simp at h
        | ok child =>
          rw [hb] at h
          cases hr : build_edges f wf rest with
          | error e => rw [hr] at h; simp at h
          | ok es' =>
            rw [hr] at h
            rw [ih g wf n child hfg hb, ihes es' hfg hr]
            exact h
    intro g wf n t hfg h
    cases g with
    | zero => omega
    | succ g =>
      have hfg' : f ≤ g := by omega
      simp only [build_dag] at h ⊢
      cases hl : List.lookup n wf with
      | none => rw [hl] at h; simp at h
      | some desc =>
        rw [hl] at h
        dsimp only at h ⊢
        cases hb : build_edges f wf desc.getEdges with
        | error e => rw [hb] at h; simp at h
        | ok es =>
          rw [hb] at h
          rw [edges_mono g wf desc.getEdges es hfg' hb]
          exact h

/-- A successfully built edge list preserves both the declared target
names and the declared delays, in declaration order. -/
theorem build_edges_shape :
    ∀ fuel wf (es : List (String × ℚ)) el, build_edges fuel wf es = .ok el →
      el.targetNames = es.map Prod.fst ∧ el.delays = es.map Prod.snd := by
  intro fuel wf es
  induction es with
  | nil => intro el h; simp [build_edges] at h; simp [← h, Edges.targetNames, Edges.delays]
  | cons hd rest ihes =>
    obtain ⟨n, t⟩ := hd
    intro el h
    simp only [build_edges] at h
    cases hb : build_dag fuel wf n with
    | error e => rw [hb] at h; simp at h
    | ok child =>
      rw [hb] at h
      cases hr : build_edges fuel wf rest with
      | error e => rw [hr] at h; simp at h
      | ok es' =>
        rw [hr] at h
        cases h
        obtain ⟨h1, h2⟩ := ihes es' hr
        simp [Edges.targetNames, Edges.delays, h1, h2, build_dag_name fuel wf n child hb]

/-- C7.  `build_dag` is deterministic — two successful runs on the
same validated graph and root, even at different recursion depths,
yield the same tree — and order-preserving: the built node is named
after its root and its ordered edge sequence carries exactly the
target names and delays of the raw descriptor's edge mapping, in
declaration order. -/
theorem build_deterministic_and_ordered (f g : Nat) (wf : Workflow) (n : String)
    (t t' : Node) (h : build_dag f wf n = .ok t) (h' : build_dag g wf n = .ok t') :
    t = t' ∧ t.name = n ∧
    ∃ desc, List.lookup n wf = some desc ∧
      t.edges.targetNames = desc.getEdges.map Prod.fst ∧
      t.edges.delays = desc.getEdges.map Prod.snd := by
  have hdet : t = t' := by
    rcases le_total f g with hle | hle
    · have := build_dag_mono f g wf n t hle h
      rw [h'] at this; cases this; rfl
    · have := build_dag_mono g f wf n t' hle h'
      rw [h] at this; cases this; rfl
  refine ⟨hdet, build_dag_name f wf n t h, ?_⟩
  cases f with
  | zero => simp [build_dag] at h
  | succ f =>
    simp only [build_dag] at h
    cases hl : List.lookup n wf with
    | none => rw [hl] at h; simp at h
    | some desc =>
      rw [hl] at h
      dsimp only at h
      cases hb : build_edges f wf desc.getEdges with
      | error e => rw [hb] at h; simp at h
      | ok es =>
        rw [hb] at h
        cases h
        exact ⟨desc, rfl, build_edges_shape f wf desc.getEdges es hb⟩

/-- Witness for C7: two builds of the SIMPLE fixture at different
recursion depths both yield `simpleTree`, whose edge order matches
the declaration order B, C with delays 0.5, 0.7. -/
theorem build_deterministic_and_ordered_witness :
    simpleTree = simpleTree ∧ simpleTree.name = "A" ∧
    ∃ desc, List.lookup "A" simpleWf = some desc ∧
      simpleTree.edges.targetNames = desc.getEdges.map Prod.fst ∧
      simpleTree.edges.delays = desc.getEdges.map Prod.snd :=
  build_deterministic_and_ordered 4 5 simpleWf "A" simpleTree simpleTree
    (by simp [build_dag, build_edges, RawNode.getEdges, simpleWf, simpleTree, List.lookup])
    (by simp [build_dag, build_edges, RawNode.getEdges, simpleWf, simpleTree, List.lookup])

/-- C8.  The builder duplicates shared structure: for every node
name, the number of separate `Node` instances carrying that name in
the built tree (which is a tree by construction of the `Node` type)
equals the number of distinct edge-paths of the raw graph from the
root to that name. -/
theorem occCount_eq_countPaths :
    ∀ fuel wf n x t, build_dag fuel wf n = .ok t →
      occCount x t = countPaths fuel wf n x := by
  intro fuel
  induction fuel with
  | zero => intro wf n x t h; simp [build_dag] at h
  | succ fuel ih =>
    have edges_ih : ∀ wf (es : List (String × ℚ)) el x, build_edges fuel wf es = .ok el →
        occCountE x el = ((es.map Prod.fst).map fun m => countPaths fuel wf m x).sum := by
      intro wf es
      induction es with
      | nil => intro el x h; simp [build_edges] at h; simp [← h, occCountE]
      | cons hd rest ihes =>
        obtain ⟨n, t⟩ := hd
        intro el x h
        simp only [build_edges] at h
        cases hb : build_dag fuel wf n with
        | error e => rw [hb] at h; simp at h
        | ok child =>
          rw [hb] at h
          cases hr : build_edges fuel wf rest with
          | error e => rw [hr] at h; simp at h
          | ok es' =>
            rw [hr] at h
            cases h
            simp [occCountE, ih wf n x child hb, ihes es' x hr]
    intro wf n x t h
    simp only [build_dag] at h
    cases hl : List.lookup n wf with
    | none => rw [hl] at h; simp at h
    | some desc =>
      rw [hl] at h
      dsimp only at h
      cases hb : build_edges fuel wf desc.getEdges with
      | error e => rw [hb] at h; simp at h
      | ok es =>
        rw [hb] at h
        cases h
        simp only [occCount, countPaths, hl]
        rw [edges_ih wf desc.getEdges es x hb]

/-- Witness for C8 at the diamond graph: the built tree duplicates
the shared descendant "D", one instance per path, so it occurs twice
— matching the two raw paths A→B→D and A→C→D. -/
theorem occCount_eq_countPaths_witness :
    occCount "D" diamondTree = countPaths (validateFuel diamondWf) diamondWf "A" "D" ∧
    occCount "D" diamondTree = 2 :=
  ⟨occCount_eq_countPaths (validateFuel diamondWf) diamondWf "A" "D" diamondTree
    (by simp [build_dag, build_edges, RawNode.getEdges, validateFuel, diamondWf,
      diamondTree, List.lookup]),
   by simp [occCount, occCountE, diamondTree]⟩

mutual
/-- One observation is emitted per node of the tree. -/
theorem schedule_length : ∀ (t : ℚ) (n : Node), (schedule t n).length = n.size
  | t, .mk name es => by
    simp [schedule, Node.size, scheduleEdges_length t es, Nat.add_comm]

/-- One observation is emitted per node hanging off an edge list. -/
theorem scheduleEdges_length :
    ∀ (t : ℚ) (es : Edges), (scheduleEdges t es).length = es.sizeNodes
  | _, .nil => by simp [scheduleEdges, Edges.sizeNodes]
  | t, .cons (.mk child d) rest => by
    simp [scheduleEdges, Edges.sizeNodes, schedule_length (t + d) child,
      scheduleEdges_length t rest]
end

/-- The completion time of the children of a visit at time `t` is
never earlier than `t` itself. -/
theorem time_le_completesE : ∀ (t : ℚ) (es : Edges), t ≤ completesE t es
  | _, .nil => le_refl _
  | t, .cons (.mk _ _) rest =>
    le_trans (time_le_completesE t rest) (le_max_right _ _)

mutual
/-- Every observation of a subtree visited at time `t` fires no later
than the completion of that subtree's visit. -/
theorem sched_le_completes :
    ∀ (t : ℚ) (n : Node) (e : ℚ × String), e ∈ schedule t n → e.1 ≤ completes t n
  | t, .mk name es, e, he => by
    rw [schedule, List.mem_cons] at he
    rcases he with he | he
    · rw [he, completes]
      exact time_le_completesE t es
    · rw [completes]
      exact schedE_le_completesE t es e he

/-- Every observation of the subtrees launched at time `t` fires no
later than the completion of the `gather` over them. -/
theorem schedE_le_completesE :
    ∀ (t : ℚ) (es : Edges) (e : ℚ × String), e ∈ scheduleEdges t es → e.1 ≤ completesE t es
  | _, .nil, e, he => by rw [scheduleEdges] at he; cases he
  | t, .cons (.mk child d) rest, e, he => by
    rw [scheduleEdges, List.mem_append] at he
    rw [completesE]
    rcases he with he | he
    · exact le_trans (sched_le_completes (t + d) child e he) (le_max_left _ _)
    · exact le_trans (schedE_le_completesE t rest e he) (le_max_right _ _)
end

/-- C6.  A traversal run started at time `t` emits exactly one
observation per node of the tree — the emitted list has exactly
`root.size` entries — and no observation fires later than the
completion time of the whole `traverse` call: the call completes only
after every node has been visited. -/
theorem one_observation_per_node_and_completion (t : ℚ) (root : Node) :
    (schedule t root).length = root.size ∧
    ∀ e ∈ schedule t root, e.1 ≤ completes t root :=
  ⟨schedule_length t root, fun e he => sched_le_completes t root e he⟩

/-- Witness for C6 at the INTERLEAVED fixture tree: four nodes, four
observations, and a sample observation fires before completion. -/
theorem one_observation_per_node_and_completion_witness :
    (schedule 0 interTree).length = interTree.size ∧
    ((1 : ℚ)/2, "D") ∈ schedule 0 interTree ∧
    ((1 : ℚ)/2 : ℚ) ≤ completes 0 interTree :=
  ⟨(one_observation_per_node_and_completion 0 interTree).1,
   by simp [schedule, scheduleEdges, interTree]; norm_num,
   (one_observation_per_node_and_completion 0 interTree).2 ((1 : ℚ)/2, "D")
     (by simp [schedule, scheduleEdges, interTree]; norm_num)⟩

mutual
/-- Master positional lemma: the node reached by a root-to-node path
has a well-defined position in the spawn-ordered observation list and
a well-defined accumulated delay, and the observation at that
position fires exactly at the start time plus that accumulated
delay. -/
theorem sched_master :
    ∀ (root : Node) (p : List Nat) (n : Node), followPath root p = some n →
      ∃ i d, preIdx root p = some i ∧ pathDelay root p = some d ∧
        ∀ t : ℚ, (schedule t root)[i]? = some (t + d, n.name)
  | root, [], n, h => by
    rw [followPath] at h
    injection h with h
    subst h
    refine ⟨0, 0, by rw [preIdx], by rw [pathDelay], fun t => ?_⟩
    cases root with
    | mk name es => simp [schedule, Node.name]
  | .mk name es, a :: p, n, h => by
    rw [followPath] at h
    cases hg : es.getEdge a with
    | none => rw [hg] at h; cases h
    | some e =>
      rw [hg] at h
      dsimp only at h
      obtain ⟨child, d0⟩ := e
      simp only [Edge.node] at h
      obtain ⟨i, d, hi, hd, hat⟩ := schedE_master es a p child d0 n hg h
      refine ⟨i + 1, d0 + d, ?_, ?_, fun t => ?_⟩
      · rw [preIdx, hi]; rfl
      · simp [pathDelay, hg, Edge.node, Edge.time, hd]
      · rw [schedule]
        simpa [add_assoc] using hat t
termination_by _ p _ _ => (p.length, 0)

/-- Edge-list version of the master positional lemma, for the node
reached by descending into the `a`-th edge and following `p`. -/
theorem schedE_master :
    ∀ (es : Edges) (a : Nat) (p : List Nat) (child : Node) (d0 : ℚ) (n : Node),
      es.getEdge a = some (.mk child d0) → followPath child p = some n →
      ∃ i d, preIdxE es a p = some i ∧ pathDelay child p = some d ∧
        ∀ t : ℚ, (scheduleEdges t es)[i]? = some ((t + d0) + d, n.name)
  | .nil, a, p, child, d0, n, hg, h => by
    simp only [Edges.getEdge] at hg
    exact Option.noConfusion hg
  | .cons (.mk c dd) rest, 0, p, child, d0, n, hg, h => by
    simp only [Edges.getEdge] at hg
    injection hg with hg
    injection hg with h1 h2
    subst h1
    subst h2
    obtain ⟨i, d, hi, hd, hat⟩ := sched_master c p n h
    refine ⟨i, d, ?_, hd, fun t => ?_⟩
    · rw [preIdxE]; exact hi
    · rw [scheduleEdges]
      have hlen : i < (schedule (t + dd) c).length :=
        (List.getElem?_eq_some.mp (hat (t + dd))).1
      rw [List.getElem?_append_left hlen]
      exact hat (t + dd)
  | .cons (.mk c dd) rest, a + 1, p, child, d0, n, hg, h => by
    simp only [Edges.getEdge] at hg
    obtain ⟨i, d, hi, hd, hat⟩ := schedE_master rest a p child d0 n hg h
    refine ⟨c.size + i, d, ?_, hd, fun t => ?_⟩
    · rw [preIdxE, hi]; rfl
    · rw [scheduleEdges]
      have hlen : (schedule (t + dd) c).length = c.size := schedule_length (t + dd) c
      rw [List.getElem?_append_right (by omega : (schedule (t + dd) c).length ≤ c.size + i)]
      rw [hlen]
      simpa using hat t
termination_by _ a p _ _ _ _ _ => (p.length, a + 1)
end

/-- C3.  Under the exact-timer model, the node reached by any
root-to-node path of the runtime tree is visited exactly at the sum
of the edge delays along that path after the start of the traversal:
each child fires its edge delay after its own parent's visit, so the
elapsed times accumulate along the path. -/
theorem visit_time_eq_path_delay_sum (root : Node) (p : List Nat) (n : Node)
    (h : followPath root p = some n) :
    ∃ d, pathDelay root p = some d ∧ (d, n.name) ∈ schedule 0 root := by
  obtain ⟨i, d, hi, hd, hat⟩ := sched_master root p n h
  refine ⟨d, hd, ?_⟩
  have h0 := hat 0
  rw [zero_add] at h0
  exact List.getElem?_mem h0

/-- Witness for C3 at the INTERLEAVED tree: the node reached by the
path A→B→D is visited at 0.4 + 0.1 = 0.5 seconds — D's delay counts
from B's visit, not from the start of the run. -/
theorem visit_time_eq_path_delay_sum_witness :
    ∃ d, pathDelay interTree [0, 0] = some d ∧ (d, "D") ∈ schedule 0 interTree := by
  have h := visit_time_eq_path_delay_sum interTree [0, 0] (.mk "D" .nil)
    (by simp [followPath, Edges.getEdge, interTree])
  simpa [Node.name] using h

/-- A non-negative edge list yields, at every index, a non-negative
delay and a subtree all of whose delays are non-negative. -/
theorem nonnegE_get :
    ∀ (es : Edges) (a : Nat) (child : Node) (d : ℚ),
      es.nonnegE = true → es.getEdge a = some (.mk child d) →
      0 ≤ d ∧ child.nonneg = true
  | .nil, a, child, d, hn, hg => by
    simp only [Edges.getEdge] at hg
    exact Option.noConfusion hg
  | .cons (.mk c dd) rest, 0, child, d, hn, hg => by
    simp only [Edges.getEdge] at hg
    injection hg with hg
    injection hg with h1 h2
    subst h1
    subst h2
    simp only [Edges.nonnegE, Bool.and_eq_true, decide_eq_true_eq] at hn
    exact ⟨hn.1.1, hn.1.2⟩
  | .cons (.mk c dd) rest, a + 1, child, d, hn, hg => by
    simp only [Edges.getEdge] at hg
    simp only [Edges.nonnegE, Bool.and_eq_true] at hn
    exact nonnegE_get rest a child d hn.2 hg

/-- With non-negative delays, every accumulated path delay is
non-negative. -/
theorem pathDelay_nonneg :
    ∀ (n : Node) (q : List Nat) (e : ℚ),
      n.nonneg = true → pathDelay n q = some e → 0 ≤ e
  | n, [], e, hn, hd => by
    rw [pathDelay] at hd
    injection hd with hd
    subst hd
    exact le_refl 0
  | .mk name es, a :: q, e, hn, hd => by
    rw [pathDelay] at hd
    cases hg : es.getEdge a with
    | none => rw [hg] at hd; exact Option.noConfusion hd
    | some ed =>
      rw [hg] at hd
      dsimp only at hd
      obtain ⟨child, d0⟩ := ed
      simp only [Edge.node, Edge.time] at hd
      cases hdc : pathDelay child q with
      | none => rw [hdc] at hd; exact Option.noConfusion hd
      | some dc =>
        rw [hdc] at hd
        simp at hd
        simp only [Node.nonneg] at hn
        have h1 := nonnegE_get es a child d0 hn hg
        have h2 := pathDelay_nonneg child q dc h1.2 hdc
        linarith [h1.1, h2]

/-- A nonempty valid path never points at position 0, the root's own
observation. -/
theorem preIdx_pos (root : Node) (q : List Nat) (j : Nat)
    (hq : q ≠ []) (h : preIdx root q = some j) : 1 ≤ j := by
  cases q with
  | nil => exact absurd rfl hq
  | cons a q' =>
    cases root with
    | mk name es =>
      rw [preIdx] at h
      cases hE : preIdxE es a q' with
      | none => rw [hE] at h; exact Option.noConfusion h
      | some k => rw [hE] at h; simp at h; omega

mutual
/-- Extending a valid path strictly increases the spawn-order
position and (with non-negative delays) never decreases the
accumulated delay. -/
theorem path_order :
    ∀ (root : Node) (p q : List Nat) (i j : Nat) (d e : ℚ),
      q ≠ [] → root.nonneg = true →
      preIdx root p = some i → preIdx root (p ++ q) = some j →
      pathDelay root p = some d → pathDelay root (p ++ q) = some e →
      i < j ∧ d ≤ e
  | root, [], q, i, j, d, e, hq, hn, hi, hj, hd, he => by
    rw [preIdx] at hi
    injection hi with hi
    rw [pathDelay] at hd
    injection hd with hd
    subst hi
    subst hd
    constructor
    · have := preIdx_pos root q j hq (by simpa using hj)
      omega
    · exact pathDelay_nonneg root q e hn (by simpa using he)
  | .mk name es, a :: p, q, i, j, d, e, hq, hn, hi, hj, hd, he => by
    rw [List.cons_append] at hj he
    rw [preIdx] at hi hj
    rw [pathDelay] at hd he
    cases hg : es.getEdge a with
    | none => rw [hg] at hd; exact Option.noConfusion hd
    | some ed =>
      rw [hg] at hd he
      dsimp only at hd he
      obtain ⟨child, d0⟩ := ed
      simp only [Edge.node, Edge.time] at hd he
      cases hiE : preIdxE es a p with
      | none => rw [hiE] at hi; exact Option.noConfusion hi
      | some iE =>
        cases hjE : preIdxE es a (p ++ q) with
        | none => rw [hjE] at hj; exact Option.noConfusion hj
        | some jE =>
          rw [hiE] at hi
          rw [hjE] at hj
          simp at hi hj
          cases hdc : pathDelay child p with
          | none => rw [hdc] at hd; exact Option.noConfusion hd
          | some dc =>
            cases hec : pathDelay child (p ++ q) with
            | none => rw [hec] at he; exact Option.noConfusion he
            | some ec =>
              rw [hdc] at hd
              rw [hec] at he
              simp at hd he
              simp only [Node.nonneg] at hn
              obtain ⟨hij, hde⟩ :=
                pathE_order es a child d0 p q iE jE dc ec hq hn hg hiE hjE hdc hec
              exact ⟨by omega, by linarith⟩
termination_by _ p _ _ _ _ _ _ _ _ _ _ _ => (p.length, 0)

/-- Edge-list version of `path_order`, for paths descending into the
`a`-th edge of an edge list. -/
theorem pathE_order :
    ∀ (es : Edges) (a : Nat) (child : Node) (d0 : ℚ) (p q : List Nat)
      (i j : Nat) (d e : ℚ),
      q ≠ [] → es.nonnegE = true →
      es.getEdge a = some (.mk child d0) →
      preIdxE es a p = some i → preIdxE es a (p ++ q) = some j →
      pathDelay child p = some d → pathDelay child (p ++ q) = some e →
      i < j ∧ d ≤ e
  | .nil, a, child, d0, p, q, i, j, d, e, hq, hn, hg, hi, hj, hd, he => by
    simp only [Edges.getEdge] at hg
    exact Option.noConfusion hg
  | .cons (.mk c dd) rest, 0, child, d0, p, q, i, j, d, e, hq, hn, hg, hi, hj, hd, he => by
    simp only [Edges.getEdge] at hg
    injection hg with hg
    injection hg with h1 h2
    subst h1
    subst h2
    simp only [Edges.nonnegE, Bool.and_eq_true] at hn
    rw [preIdxE] at hi hj
    exact path_order c p q i j d e hq hn.1.2 hi hj hd he
  | .cons (.mk c dd) rest, a + 1, child, d0, p, q, i, j, d, e, hq, hn, hg, hi, hj, hd, he => by
    simp only [Edges.getEdge] at hg
    simp only [Edges.nonnegE, Bool.and_eq_true] at hn
    rw [preIdxE] at hi hj
    cases hiE : preIdxE rest a p with
    | none => rw [hiE] at hi; exact Option.noConfusion hi
    | some iE =>
      cases hjE : preIdxE rest a (p ++ q) with
      | none => rw [hjE] at hj; exact Option.noConfusion hj
      | some jE =>
        rw [hiE] at hi
        rw [hjE] at hj
        simp at hi hj
        obtain ⟨hij, hde⟩ :=
          pathE_order rest a child d0 p q iE jE d e hq hn.2 hg hiE hjE hd he
        exact ⟨by omega, hde⟩
termination_by _ a _ _ p _ _ _ _ _ _ _ _ _ _ _ _ => (p.length, a + 1)
end

/-- C4.  Under the exact-timer model, a node's observation precedes
the observations of all of its descendants: for every valid path `p`
and strict extension `p ++ q` in a tree with non-negative delays, the
ancestor's observation occupies a strictly earlier position of the
spawn-ordered observation list and fires no later than the
descendant's — children are spawned only after their parent's
observation is emitted and wait a further non-negative delay, so
they never overtake it. -/
theorem parent_precedes_descendants (root : Node) (p q : List Nat) (n m : Node)
    (hq : q ≠ []) (hn : root.nonneg = true)
    (hp : followPath root p = some n) (hm : followPath root (p ++ q) = some m) :
    ∃ i j d e, preIdx root p = some i ∧ preIdx root (p ++ q) = some j ∧
      pathDelay root p = some d ∧ pathDelay root (p ++ q) = some e ∧
      i < j ∧ d ≤ e ∧
      ∀ t : ℚ, (schedule t root)[i]? = some (t + d, n.name) ∧
        (schedule t root)[j]? = some (t + e, m.name) := by
  obtain ⟨i, d, hi, hd, hati⟩ := sched_master root p n hp
  obtain ⟨j, e, hj, he, hatj⟩ := sched_master root (p ++ q) m hm
  obtain ⟨hij, hde⟩ := path_order root p q i j d e hq hn hi hj hd he
  exact ⟨i, j, d, e, hi, hj, hd, he, hij, hde, fun t => ⟨hati t, hatj t⟩⟩

/-- Witness for C4 at the INTERLEAVED tree: B (path [0], visited at
0.4) precedes its child D (path [0,0], visited at 0.5) both in spawn
order and in firing time. -/
theorem parent_precedes_descendants_witness :
    ∃ i j d e, preIdx interTree [0] = some i ∧ preIdx interTree ([0] ++ [0]) = some j ∧
      pathDelay interTree [0] = some d ∧ pathDelay interTree ([0] ++ [0]) = some e ∧
      i < j ∧ d ≤ e ∧
      ∀ t : ℚ, (schedule t interTree)[i]? = some (t + d, "B") ∧
        (schedule t interTree)[j]? = some (t + e, "D") := by
  have h := parent_precedes_descendants interTree [0] [0]
    (.mk "B" (.cons (.mk (.mk "D" .nil) ((1 : ℚ)/10)) .nil)) (.mk "D" .nil)
    (by simp) (by norm_num [Node.nonneg, Edges.nonnegE, interTree])
    (by simp [followPath, Edges.getEdge, interTree])
    (by simp [followPath, Edges.getEdge, interTree])
  simpa [Node.name] using h

end Traverse
